import Mathlib

/-!
Shallow embedding of the skyscrapers board validator (`skyscrapers.py`).

Boards are lists of rows, each row a list of characters.  Python functions
that can raise (`IndexError` from indexing, `ValueError` from `int(...)`)
are embedded as `Option`-valued functions returning `none` on the raising
paths; total functions stay `Bool`-valued.
-/

namespace Skyscrapers

/-- ASCII whitespace characters stripped by Python `str.strip()`. -/
def isSpace (c : Char) : Bool :=
  c == ' ' || c == '\t' || c == '\n' || c == '\r' || c == '\x0b' || c == '\x0c'

/-- Python `line.strip()`: remove leading and trailing whitespace. -/
def strip (l : List Char) : List Char :=
  ((l.dropWhile isSpace).reverse.dropWhile isSpace).reverse

/-- Python `read_input`, applied to the list of raw lines of the file:
`[line.strip() for line in contents]`. -/
def read_input (contents : List (List Char)) : List (List Char) :=
  contents.map strip

/-- Modelled from the spec ("strips trailing whitespace/newlines"): removal
of trailing whitespace only, leading characters preserved.  Used to compare
the wording of the spec for `read_input` with the behaviour of the code. -/
def rstripSpec (l : List Char) : List Char :=
  (l.reverse.dropWhile isSpace).reverse

/-- Python `check_not_finished_board`: scan every cell of every row, returning
`False` as soon as a cell equals the unknown marker. -/
def check_not_finished_board (board : List (List Char)) : Bool :=
  board.all (fun row => row.all (fun c => c != '?'))

/-- Inner loop of `check_uniqueness_in_rows`: walk the cells of one row,
skipping the filler marker, failing when a cell is already in the set of
heights seen (the set is modelled as a list). -/
def scanRow : List Char → List Char → Bool
  | [], _ => true
  | c :: rest, seen =>
    if c = '*' then scanRow rest seen
    else if c ∈ seen then false
    else scanRow rest (c :: seen)

/-- Python `check_uniqueness_in_rows`: for each interior row
(`range(1, len(board) - 1)`), scan its interior cells
(`range(1, len(board[row_idx]) - 1)`) for a duplicate. -/
def check_uniqueness_in_rows (board : List (List Char)) : Bool :=
  ((board.drop 1).dropLast).all (fun row => scanRow ((row.drop 1).dropLast) [])

/-- Inner loop of `check_uniqueness_in_columns`: walk the given rows taking
the cell at index `col` of each (`none` when a row is too short, matching
the Python `IndexError`), skipping filler, failing on a duplicate. -/
def scanColRows : List (List Char) → Nat → List Char → Option Bool
  | [], _, _ => some true
  | row :: rest, col, seen =>
    match row.get? col with
    | none => none
    | some c =>
      if c = '*' then scanColRows rest col seen
      else if c ∈ seen then some false
      else scanColRows rest col (c :: seen)

/-- Outer loop of `check_uniqueness_in_columns` over the column indices:
stop with `False` at the first failing column, propagate errors. -/
def checkColsGo (rows : List (List Char)) : List Nat → Option Bool
  | [] => some true
  | col :: rest =>
    match scanColRows rows col [] with
    | none => none
    | some false => some false
    | some true => checkColsGo rows rest

/-- Python `check_uniqueness_in_columns`: column indices are
`range(1, len(board[0]) - 1)`; `board[0]` raises on an empty board. -/
def check_uniqueness_in_columns (board : List (List Char)) : Option Bool :=
  match board.head? with
  | none => none
  | some r0 => checkColsGo ((board.drop 1).dropLast) (List.range' 1 (r0.length - 2))

/-- Python `int(c)` on a single character: defined exactly on decimal
digits. -/
def toHeight? (c : Char) : Option Nat :=
  if c.isDigit then some (c.toNat - 48) else none

/-- Numeric value of a digit character. -/
def charVal (c : Char) : Nat := c.toNat - 48

/-- Python `list(map(int, line[1:-1]))`: convert every character, raising
(`none`) at the first non-digit. -/
def mapHeights : List Char → Option (List Nat)
  | [] => some []
  | c :: rest =>
    match toHeight? c with
    | none => none
    | some h =>
      match mapHeights rest with
      | none => none
      | some t => some (h :: t)

/-- The visibility-counting while loop of `check_visibility`: walk the
heights keeping the running maximum (`none` models the initial
negative infinity), counting each strictly greater height. -/
def countFrom : List Nat → Option Nat → Nat
  | [], _ => 0
  | h :: t, none => countFrom t (some h) + 1
  | h :: t, some m => if m < h then countFrom t (some h) + 1 else countFrom t (some m)

/-- Number of buildings visible scanning the heights left to right. -/
def countVisible (l : List Nat) : Nat := countFrom l none

/-- The rightmost-hint half of `check_visibility`: scanning from the right
is counting on the reversed heights. -/
def checkRight (heights : List Nat) (lastc : Char) : Option Bool :=
  if lastc ≠ '*' then
    match toHeight? lastc with
    | none => none
    | some hint => if countVisible heights.reverse ≠ hint then some false else some true
  else some true

/-- Python `check_visibility`: convert the interior `line[1:-1]` to heights, then
check the leftmost hint (if present), then the rightmost hint. -/
def check_visibility (line : List Char) : Option Bool :=
  match mapHeights ((line.drop 1).dropLast) with
  | none => none
  | some heights =>
    match line.head? with
    | none => none
    | some first =>
      match line.getLast? with
      | none => none
      | some lastc =>
        if first ≠ '*' then
          match toHeight? first with
          | none => none
          | some hint =>
            if countVisible heights ≠ hint then some false
            else checkRight heights lastc
        else checkRight heights lastc

/-- Loop of `check_horizontal_visibility` over the interior rows. -/
def hvGo : List (List Char) → Option Bool
  | [] => some true
  | row :: rest =>
    match check_visibility row with
    | none => none
    | some false => some false
    | some true => hvGo rest

/-- Python `check_horizontal_visibility`: apply `check_visibility` on each interior
row. -/
def check_horizontal_visibility (board : List (List Char)) : Option Bool :=
  hvGo ((board.drop 1).dropLast)

/-- The column line built by `check_vertical_visibility`: the cell at
index `col` of every row of the board (borders included), `none` when a
row is too short. -/
def colChars : List (List Char) → Nat → Option (List Char)
  | [], _ => some []
  | row :: rest, col =>
    match row.get? col with
    | none => none
    | some c =>
      match colChars rest col with
      | none => none
      | some cs => some (c :: cs)

/-- Loop of `check_vertical_visibility` over the column indices. -/
def vvGo (board : List (List Char)) : List Nat → Option Bool
  | [] => some true
  | col :: rest =>
    match colChars board col with
    | none => none
    | some line =>
      match check_visibility line with
      | none => none
      | some false => some false
      | some true => vvGo board rest

/-- Python `check_vertical_visibility`: column indices are
`range(1, len(board[0]) - 1)`; each column line spans all rows. -/
def check_vertical_visibility (board : List (List Char)) : Option Bool :=
  match board.head? with
  | none => none
  | some r0 => vvGo board (List.range' 1 (r0.length - 2))

/-- Body of `check_skyscrapers` after the board is loaded: completeness,
then uniqueness (`rows and columns`, the column check only evaluated when
the row check passes), then both visibility passes. -/
def validate_board (board : List (List Char)) : Option Bool :=
  match (if check_uniqueness_in_rows board
         then check_uniqueness_in_columns board
         else some false) with
  | none => none
  | some is_unique =>
    if !(check_not_finished_board board && is_unique) then some false
    else
      match check_horizontal_visibility board, check_vertical_visibility board with
      | none, _ => none
      | some _, none => none
      | some h, some v => some (h && v)

/-- Python `check_skyscrapers`, with the file modelled by its list of raw lines:
load via `read_input`, then validate. -/
def check_skyscrapers (contents : List (List Char)) : Option Bool :=
  validate_board (read_input contents)

/-- The conjunction of two fallible boolean checks, first one evaluated
first: used to state what `check_skyscrapers` returns once completeness
and uniqueness pass. -/
def liftAnd : Option Bool → Option Bool → Option Bool
  | none, _ => none
  | some _, none => none
  | some a, some b => some (a && b)

/-- A border cell: hint digit or filler. -/
def borderOk (c : Char) : Bool := c.isDigit || c == '*'

/-- An interior cell: height digit or unknown marker. -/
def interiorOk (c : Char) : Bool := c.isDigit || c == '?'

/-- The data-model invariant of the spec: a nonempty square board whose first
and last rows are border cells, and whose remaining rows are a border
cell, interior cells, and a border cell. -/
def wellFormedBoard (board : List (List Char)) : Bool :=
  !board.isEmpty &&
  board.all (fun row => row.length == board.length) &&
  (board.head?.all (fun r => r.all borderOk)) &&
  (board.getLast?.all (fun r => r.all borderOk)) &&
  ((board.drop 1).dropLast).all (fun row =>
    row.head?.all borderOk && row.getLast?.all borderOk &&
    ((row.drop 1).dropLast).all interiorOk)

/-- No interior cell of an interior row holds the unknown marker. -/
def noInteriorUnknown (board : List (List Char)) : Bool :=
  ((board.drop 1).dropLast).all (fun row => ((row.drop 1).dropLast).all (fun c => c != '?'))

/-- Modelled from the spec ("the transposed board"): row `j` of the
transpose is the cell at index `j` of every row of the board. -/
def transposeBoard (board : List (List Char)) : List (List Char) :=
  match board.head? with
  | none => []
  | some r0 => (List.range r0.length).map (fun j => board.map (fun row => row.getD j ' '))

/-- The example board stored at `docs/check.txt` in the repository. -/
def goodBoard : List (List Char) :=
  ["***21**".data, "412453*".data, "423145*".data, "*543215".data,
   "*35214*".data, "*41532*".data, "*2*1***".data]

/-- The example board with its second line changed to `452453*`. -/
def badBoard : List (List Char) :=
  ["***21**".data, "452453*".data, "423145*".data, "*543215".data,
   "*35214*".data, "*41532*".data, "*2*1***".data]

/-! ## Helper lemmas -/

/-- Converting a list of digit characters succeeds and yields their
values. -/
lemma mapHeights_digits (l : List Char) (h : ∀ c ∈ l, c.isDigit = true) :
    mapHeights l = some (l.map charVal) := by
  induction l with
  | nil => rfl
  | cons c t ih =>
    have hc : c.isDigit = true := h c (by simp)
    have ht : ∀ x ∈ t, x.isDigit = true := fun x hx => h x (by simp [hx])
    simp [mapHeights, toHeight?, hc, ih ht, charVal]

/-- Converting a list with a non-digit character fails. -/
lemma mapHeights_none (l : List Char) (h : ∃ c ∈ l, c.isDigit = false) :
    mapHeights l = none := by
  induction l with
  | nil => simp at h
  | cons c t ih =>
    rcases h with ⟨d, hd, hdig⟩
    rcases List.mem_cons.mp hd with rfl | hdt
    · simp [mapHeights, toHeight?, hdig]
    · by_cases hc : c.isDigit
      · simp [mapHeights, toHeight?, hc, ih ⟨d, hdt, hdig⟩]
      · simp [mapHeights, toHeight?, hc]

/-- Closed form of `check_visibility` on a structurally decomposed line
with digit interior and digit-or-filler borders. -/
lemma check_visibility_eval (b1 b2 : Char) (mid : List Char)
    (hmid : ∀ c ∈ mid, c.isDigit = true)
    (hb1 : b1.isDigit = true ∨ b1 = '*') (hb2 : b2.isDigit = true ∨ b2 = '*') :
    check_visibility (b1 :: (mid ++ [b2])) =
      some ((b1 == '*' || countVisible (mid.map charVal) == charVal b1) &&
            (b2 == '*' || countVisible ((mid.map charVal).reverse) == charVal b2)) := by
  have hdrop : ((b1 :: (mid ++ [b2])).drop 1).dropLast = mid := by
    simp
  have hlast : (b1 :: (mid ++ [b2])).getLast? = some b2 := by
    rw [show b1 :: (mid ++ [b2]) = (b1 :: mid) ++ [b2] by simp, List.getLast?_concat]
  unfold check_visibility
  rw [hdrop, mapHeights_digits mid hmid, List.head?_cons, hlast]
  rcases hb1 with hb1 | rfl
  · have hb1ne : b1 ≠ '*' := by
      intro h; rw [h] at hb1; simp [Char.isDigit] at hb1
    simp only [if_pos hb1ne, toHeight?, if_pos hb1]
    rcases hb2 with hb2 | rfl
    · have hb2ne : b2 ≠ '*' := by
        intro h; rw [h] at hb2; simp [Char.isDigit] at hb2
      simp only [checkRight, if_pos hb2ne, toHeight?, if_pos hb2]
      by_cases h1 : countVisible (mid.map charVal) = b1.toNat - 48 <;>
        by_cases h2 : countVisible ((mid.map charVal).reverse) = b2.toNat - 48 <;>
          simp [h1, h2, hb1ne, hb2ne, charVal]
    · simp only [checkRight]
      by_cases h1 : countVisible (mid.map charVal) = b1.toNat - 48 <;>
        simp [h1, hb1ne, charVal]
  · simp only [checkRight]
    rcases hb2 with hb2 | rfl
    · have hb2ne : b2 ≠ '*' := by
        intro h; rw [h] at hb2; simp [Char.isDigit] at hb2
      simp only [if_pos hb2ne, toHeight?, if_pos hb2]
      by_cases h2 : countVisible ((mid.map charVal).reverse) = b2.toNat - 48 <;>
        simp [h2, hb2ne, charVal]
    · simp

/-! ## Claims -/

/-- C9: for the concrete example board `check_skyscrapers` returns `True`,
and with the second line replaced by `452453*` it returns `False`. -/
theorem check_skyscrapers_scenarios :
    check_skyscrapers goodBoard = some true ∧ check_skyscrapers badBoard = some false := by
  constructor <;> decide

/-- C2: on a line made of a border cell, digit interior cells, and a
border cell, `check_visibility` checks each hinted side independently by
the running-maximum count and accepts iff every present hint equals its
count of that side; a `*` border imposes no constraint. -/
theorem check_visibility_spec (b1 b2 : Char) (mid : List Char)
    (hmid : ∀ c ∈ mid, c.isDigit = true)
    (hb1 : b1.isDigit = true ∨ b1 = '*') (hb2 : b2.isDigit = true ∨ b2 = '*') :
    check_visibility (b1 :: (mid ++ [b2])) =
      some ((b1 == '*' || countVisible (mid.map charVal) == charVal b1) &&
            (b2 == '*' || countVisible ((mid.map charVal).reverse) == charVal b2)) :=
  check_visibility_eval b1 b2 mid hmid hb1 hb2

/-- Witness for C2 at a concrete line `4 1253 2`. -/
theorem check_visibility_spec_witness :
    check_visibility ('4' :: (['1', '2', '5', '3'] ++ ['2'])) =
      some ((('4' : Char) == '*' || countVisible (['1', '2', '5', '3'].map charVal) == charVal '4') &&
            (('2' : Char) == '*' || countVisible ((['1', '2', '5', '3'].map charVal).reverse) == charVal '2')) :=
  check_visibility_spec '4' '2' ['1', '2', '5', '3'] (by decide) (by decide) (by decide)

/-- On a chain strictly above the current maximum, every height is
counted. -/
lemma countFrom_chain (t : List Nat) (h : Nat) (hc : List.Chain (· < ·) h t) :
    countFrom t (some h) = t.length := by
  induction t generalizing h with
  | nil => rfl
  | cons x xs ih =>
    obtain ⟨hxh, hch⟩ := List.chain_cons.mp hc
    simp [countFrom, hxh, ih x hch]

/-- On a strictly increasing list every height is visible. -/
lemma countVisible_chain (l : List Nat) (hl : l.Chain' (· < ·)) :
    countVisible l = l.length := by
  cases l with
  | nil => rfl
  | cons h t =>
    have hc : List.Chain (· < ·) h t := hl
    simp [countVisible, countFrom, countFrom_chain t h hc]

/-- C7: on a strictly increasing interior height sequence of length `K`
the visible count from that side is `K`, so a line carrying hint `K` on
that side (and no hint on the other) passes `check_visibility`. -/
theorem countVisible_monotone (mid : List Char) (hintc : Char)
    (hmid : ∀ c ∈ mid, c.isDigit = true)
    (hinc : (mid.map charVal).Chain' (· < ·))
    (hhint : hintc.isDigit = true)
    (hK : charVal hintc = mid.length) :
    countVisible (mid.map charVal) = mid.length ∧
    check_visibility (hintc :: (mid ++ ['*'])) = some true := by
  have hcount : countVisible (mid.map charVal) = mid.length := by
    rw [countVisible_chain _ hinc, List.length_map]
  refine ⟨hcount, ?_⟩
  rw [check_visibility_eval hintc '*' mid hmid (Or.inl hhint) (Or.inr rfl)]
  simp [hcount, hK]

/-- Witness for C7 at the strictly increasing line `3 123 *`. -/
theorem countVisible_monotone_witness :
    countVisible (['1', '2', '3'].map charVal) = 3 ∧
    check_visibility ('3' :: (['1', '2', '3'] ++ ['*'])) = some true :=
  countVisible_monotone ['1', '2', '3'] '3' (by decide)
    (by
      have h : List.map charVal ['1', '2', '3'] = [1, 2, 3] := by decide
      rw [h]
      exact List.Chain.cons (by decide) (List.Chain.cons (by decide) List.Chain.nil))
    (by decide) (by decide)

/-- C1: `check_skyscrapers` orchestrates the checks on the loaded board:
whenever the board is not complete or not unique in rows or columns the
result is `False`, and otherwise it is the conjunction of the horizontal
and the vertical visibility checks.  The hypothesis names the value of
the column-uniqueness check (which is only evaluated by the code when the
row check passes). -/
theorem check_skyscrapers_orchestration (contents : List (List Char)) (u : Bool)
    (hcols : check_uniqueness_in_columns (read_input contents) = some u) :
    check_skyscrapers contents =
      if check_not_finished_board (read_input contents) &&
         check_uniqueness_in_rows (read_input contents) && u
      then liftAnd (check_horizontal_visibility (read_input contents))
                   (check_vertical_visibility (read_input contents))
      else some false := by
  unfold check_skyscrapers validate_board
  by_cases hr : check_uniqueness_in_rows (read_input contents)
  · rw [if_pos hr, hcols]
    by_cases hf : check_not_finished_board (read_input contents)
    · cases u with
      | false => simp [hf, hr]
      | true =>
        simp only [hf, hr, Bool.and_true, Bool.and_self, Bool.not_true,
          Bool.and_false, if_pos, if_true, Bool.not_false, Bool.false_and,
          Bool.true_and, if_false]
        cases hv : check_horizontal_visibility (read_input contents) <;>
          cases hvv : check_vertical_visibility (read_input contents) <;>
            simp [liftAnd]
    · simp [hf]
  · rw [if_neg hr]
    simp [hr]

/-- Witness for C1 at the concrete example board. -/
theorem check_skyscrapers_orchestration_witness :
    check_skyscrapers goodBoard =
      if check_not_finished_board (read_input goodBoard) &&
         check_uniqueness_in_rows (read_input goodBoard) && true
      then liftAnd (check_horizontal_visibility (read_input goodBoard))
                   (check_vertical_visibility (read_input goodBoard))
      else some false :=
  check_skyscrapers_orchestration goodBoard true (by decide)

/-- A border cell is never the unknown marker. -/
lemma borderOk_ne_unknown (c : Char) (h : borderOk c = true) : (c != '?') = true := by
  by_cases hc : c = '?'
  · subst hc
    simp [borderOk, Char.isDigit] at h
  · simp [hc]

/-- Applying `List.all` after a map is `List.all` of the composite. -/
lemma all_map_comp (l : List α) (f : α → β) (p : β → Bool) :
    (l.map f).all p = l.all (fun x => p (f x)) := by
  induction l with
  | nil => rfl
  | cons x xs ih => simp [List.all_cons, ih]

/-- Congruence for `List.all`. -/
lemma all_congr_mem (l : List α) (f g : α → Bool) (h : ∀ x ∈ l, f x = g x) :
    l.all f = l.all g := by
  induction l with
  | nil => rfl
  | cons x xs ih =>
    simp only [List.all_cons, h x (by simp), ih fun y hy => h y (by simp [hy])]

/-- For a row whose two end cells are border cells, scanning the whole row
for the unknown marker is the same as scanning only its interior. -/
lemma row_all_ne_interior (row : List Char)
    (h1 : row.head?.all borderOk = true) (h2 : row.getLast?.all borderOk = true) :
    row.all (fun c => c != '?') = ((row.drop 1).dropLast).all (fun c => c != '?') := by
  cases row with
  | nil => rfl
  | cons c rest =>
    rcases List.eq_nil_or_concat rest with rfl | ⟨mid, d, rfl⟩
    · simp only [List.head?_cons, Option.all_some] at h1
      simp [borderOk_ne_unknown c h1]
    · simp only [List.concat_eq_append] at h2 ⊢
      simp only [List.head?_cons, Option.all_some] at h1
      rw [show (c :: (mid ++ [d])).getLast? = some d by
            rw [show c :: (mid ++ [d]) = (c :: mid) ++ [d] by simp, List.getLast?_concat],
          Option.all_some] at h2
      simp [List.all_append, borderOk_ne_unknown c h1, borderOk_ne_unknown d h2]

/-- On a well-formed board the completeness scan over all cells agrees
with the scan over the interior cells only. -/
lemma check_not_finished_board_eq (board : List (List Char))
    (hwf : wellFormedBoard board = true) :
    check_not_finished_board board = noInteriorUnknown board := by
  simp only [wellFormedBoard, Bool.and_eq_true] at hwf
  obtain ⟨⟨⟨⟨hne, _⟩, htop⟩, hbot⟩, hint⟩ := hwf
  rw [List.all_eq_true] at hint
  cases board with
  | nil => rfl
  | cons r0 rest =>
    simp only [List.head?_cons, Option.all_some, List.all_eq_true] at htop
    rcases List.eq_nil_or_concat rest with rfl | ⟨mid, rl, rfl⟩
    · have htop' : r0.all (fun c => c != '?') = true := by
        rw [List.all_eq_true]; exact fun c hc => borderOk_ne_unknown c (htop c hc)
      simp [check_not_finished_board, noInteriorUnknown, htop']
    · simp only [List.concat_eq_append] at hbot hint ⊢
      rw [show (r0 :: (mid ++ [rl])).getLast? = some rl by
            rw [show r0 :: (mid ++ [rl]) = (r0 :: mid) ++ [rl] by simp, List.getLast?_concat],
          Option.all_some, List.all_eq_true] at hbot
      have hintrows : ((r0 :: (mid ++ [rl])).drop 1).dropLast = mid := by simp
      rw [hintrows] at hint
      simp only [check_not_finished_board, noInteriorUnknown, hintrows,
        List.all_cons, List.all_append, List.all_cons, List.all_nil]
      have htop' : r0.all (fun c => c != '?') = true := by
        rw [List.all_eq_true]; exact fun c hc => borderOk_ne_unknown c (htop c hc)
      have hbot' : rl.all (fun c => c != '?') = true := by
        rw [List.all_eq_true]; exact fun c hc => borderOk_ne_unknown c (hbot c hc)
      rw [htop', hbot']
      have hmid : mid.all (fun row => row.all fun c => c != '?') =
          mid.all (fun row => ((row.drop 1).dropLast).all fun c => c != '?') := by
        refine all_congr_mem mid _ _ fun row hrow => ?_
        have h := hint row hrow
        simp only [Bool.and_eq_true] at h
        exact row_all_ne_interior row h.1.1 h.1.2
      simp [hmid]

/-- C3: on a board satisfying the data-model invariant (border cells are
hint digits or filler), `check_not_finished_board` returns `True` iff no
interior cell holds the unknown marker. -/
theorem check_not_finished_board_iff (board : List (List Char))
    (hwf : wellFormedBoard board = true) :
    check_not_finished_board board = true ↔ noInteriorUnknown board = true := by
  rw [check_not_finished_board_eq board hwf]

/-- Witness for C3 at the concrete example board. -/
theorem check_not_finished_board_iff_witness :
    check_not_finished_board goodBoard = true ↔ noInteriorUnknown goodBoard = true :=
  check_not_finished_board_iff goodBoard (by decide)

/-- Characterisation of the row scan: it fails exactly when some
non-filler character is already in the seen set or occurs twice in the
remaining cells. -/
lemma scanRow_false_iff (cells : List Char) (seen : List Char) :
    scanRow cells seen = false ↔
      ∃ c, c ≠ '*' ∧ c ∈ cells ∧ (c ∈ seen ∨ 2 ≤ cells.count c) := by
  induction cells generalizing seen with
  | nil => simp [scanRow]
  | cons c rest ih =>
    by_cases hc : c = '*'
    · subst hc
      rw [show scanRow ('*' :: rest) seen = scanRow rest seen by simp [scanRow], ih]
      constructor
      · rintro ⟨d, hds, hdm, hcase⟩
        refine ⟨d, hds, List.mem_cons_of_mem _ hdm, ?_⟩
        rwa [List.count_cons_of_ne hds]
      · rintro ⟨d, hds, hdm, hcase⟩
        rcases List.mem_cons.mp hdm with rfl | hdm
        · exact absurd rfl hds
        · refine ⟨d, hds, hdm, ?_⟩
          rwa [List.count_cons_of_ne hds] at hcase
    · by_cases hmem : c ∈ seen
      · rw [show scanRow (c :: rest) seen = false by simp [scanRow, hc, hmem]]
        simp only [true_iff]
        exact ⟨c, hc, List.mem_cons_self .., Or.inl hmem⟩
      · rw [show scanRow (c :: rest) seen = scanRow rest (c :: seen) by
              simp [scanRow, hc, hmem], ih]
        constructor
        · rintro ⟨d, hds, hdm, hcase⟩
          by_cases hdc : d = c
          · subst hdc
            refine ⟨d, hds, List.mem_cons_self .., Or.inr ?_⟩
            rw [List.count_cons_self]
            have : 0 < rest.count d := List.count_pos_iff.mpr hdm
            omega
          · refine ⟨d, hds, List.mem_cons_of_mem _ hdm, ?_⟩
            rcases hcase with hd | hd
            · rcases List.mem_cons.mp hd with rfl | hd
              · exact absurd rfl hdc
              · exact Or.inl hd
            · rw [List.count_cons_of_ne hdc]
              exact Or.inr hd
        · rintro ⟨d, hds, hdm, hcase⟩
          by_cases hdc : d = c
          · subst hdc
            rcases hcase with hd | hd
            · exact absurd hd hmem
            · rw [List.count_cons_self] at hd
              have : d ∈ rest := List.count_pos_iff.mp (by omega)
              exact ⟨d, hds, this, Or.inl (List.mem_cons_self ..)⟩
          · rcases List.mem_cons.mp hdm with rfl | hdm
            · exact absurd rfl hdc
            · refine ⟨d, hds, hdm, ?_⟩
              rcases hcase with hd | hd
              · exact Or.inl (List.mem_cons_of_mem _ hd)
              · rw [List.count_cons_of_ne hdc] at hd
                exact Or.inr hd

/-- C5 (counterexample to the claim as stated): on the well-formed board
`['****', '*??*', '*12*', '****']` the row-uniqueness check returns
`False`, yet no height digit occurs twice among the interior cells of any
interior row — only the unknown marker does. -/
theorem check_uniqueness_in_rows_unknown_cex :
    check_uniqueness_in_rows ["****".data, "*??*".data, "*12*".data, "****".data] = false ∧
    ∀ row ∈ ((["****".data, "*??*".data, "*12*".data, "****".data] : List (List Char)).drop 1).dropLast,
      ∀ c ∈ (row.drop 1).dropLast, c.isDigit = true → ((row.drop 1).dropLast).count c ≤ 1 := by
  decide

/-- C5 (amended): the row-uniqueness check returns `False` iff some
interior row of the board repeats a non-filler character (a height digit
or the unknown marker alike) among its interior cells; border rows and
border cells never affect the result. -/
theorem check_uniqueness_in_rows_false_iff (board : List (List Char)) :
    check_uniqueness_in_rows board = false ↔
      ∃ row ∈ (board.drop 1).dropLast, ∃ c, c ≠ '*' ∧ 2 ≤ ((row.drop 1).dropLast).count c := by
  unfold check_uniqueness_in_rows
  rw [List.all_eq_false]
  constructor
  · rintro ⟨row, hrow, hfail⟩
    rw [Bool.not_eq_true, scanRow_false_iff] at hfail
    obtain ⟨c, hcs, _, hcase⟩ := hfail
    rcases hcase with hin | hcount
    · exact absurd hin (List.not_mem_nil c)
    · exact ⟨row, hrow, c, hcs, hcount⟩
  · rintro ⟨row, hrow, c, hcs, hcount⟩
    refine ⟨row, hrow, ?_⟩
    rw [Bool.not_eq_true, scanRow_false_iff]
    have hmem : c ∈ (row.drop 1).dropLast := List.count_pos_iff.mp (by omega)
    exact ⟨c, hcs, hmem, Or.inr hcount⟩

/-- When column `j` exists in every row, the column scan is the row scan
of the extracted column. -/
lemma scanColRows_eval (rows : List (List Char)) (j : Nat) (seen : List Char)
    (h : ∀ r ∈ rows, j < r.length) :
    scanColRows rows j seen = some (scanRow (rows.map (fun r => r.getD j ' ')) seen) := by
  induction rows generalizing seen with
  | nil => rfl
  | cons r rest ih =>
    have hj : j < r.length := h r (by simp)
    have hget : r.get? j = some (r.getD j ' ') := by
      rw [List.getD_eq_getD_get?, List.get?_eq_get hj]
      rfl
    have hrest : ∀ x ∈ rest, j < x.length := fun x hx => h x (by simp [hx])
    simp only [scanColRows, hget, List.map_cons, scanRow]
    split
    · exact ih seen hrest
    · split
      · simp
      · rw [ih _ hrest]

/-- When every listed column exists in every row, the column loop computes
the conjunction of the per-column row scans. -/
lemma checkColsGo_eval (rows : List (List Char)) (cols : List Nat)
    (h : ∀ j ∈ cols, ∀ r ∈ rows, j < r.length) :
    checkColsGo rows cols =
      some (cols.all (fun j => scanRow (rows.map (fun r => r.getD j ' ')) [])) := by
  induction cols with
  | nil => rfl
  | cons j rest ih =>
    simp only [checkColsGo, scanColRows_eval rows j [] (h j (by simp)), List.all_cons]
    cases hs : scanRow (rows.map fun r => r.getD j ' ') [] with
    | false => simp
    | true => simp [ih fun x hx => h x (by simp [hx])]

/-- Dropping the last element of a `range'` shortens it by one. -/
lemma dropLast_range_aux (s m : Nat) : (List.range' s m).dropLast = List.range' s (m - 1) := by
  cases m with
  | zero => rfl
  | succ k =>
    rw [List.range'_concat, List.dropLast_concat]
    rfl

/-- The interior indices of `range n` are `range' 1 (n - 2)`, the column
indices used by the column checks. -/
lemma range_drop_dropLast (n : Nat) :
    ((List.range n).drop 1).dropLast = List.range' 1 (n - 2) := by
  cases n with
  | zero => rfl
  | succ m =>
    rw [List.range_eq_range', List.range'_succ, List.drop_succ_cons, List.drop_zero,
      dropLast_range_aux]
    rfl

/-- C6: on a nonempty square board the column-uniqueness check is the
row-uniqueness check of the transposed board (wrapped in `some`: the
column check is fallible in general, the row check is not). -/
theorem check_uniqueness_in_columns_transpose (board : List (List Char))
    (hne : board ≠ [])
    (hsq : ∀ row ∈ board, row.length = board.length) :
    check_uniqueness_in_columns board =
      some (check_uniqueness_in_rows (transposeBoard board)) := by
  obtain ⟨r0, rest, rfl⟩ := List.exists_cons_of_ne_nil hne
  have hr0 : r0.length = (r0 :: rest).length := hsq r0 (by simp)
  have hcols : ∀ j ∈ List.range' 1 (r0.length - 2),
      ∀ r ∈ ((r0 :: rest).drop 1).dropLast, j < r.length := by
    intro j hj r hr
    have hjr := List.mem_range'_1.mp hj
    have hrb : r ∈ (r0 :: rest) := List.mem_of_mem_drop (List.mem_of_mem_dropLast hr)
    have hrlen := hsq r hrb
    have hlen : r0.length = (r0 :: rest).length := hr0
    simp only [List.length_cons] at hrlen hlen
    omega
  simp only [check_uniqueness_in_columns, List.head?_cons]
  rw [checkColsGo_eval _ _ hcols]
  simp only [check_uniqueness_in_rows, transposeBoard, List.head?_cons]
  congr 1
  rw [← List.map_drop, ← List.map_dropLast, range_drop_dropLast, all_map_comp]
  refine all_congr_mem _ _ _ fun j hj => ?_
  rw [← List.map_drop, ← List.map_dropLast]

/-- Witness for C6 at the concrete example board. -/
theorem check_uniqueness_in_columns_transpose_witness :
    check_uniqueness_in_columns goodBoard =
      some (check_uniqueness_in_rows (transposeBoard goodBoard)) :=
  check_uniqueness_in_columns_transpose goodBoard (by decide) (by decide)

/-- The function `check_visibility` is defined on any line of length at least two whose
interior cells are digits and whose end cells are digits or filler. -/
lemma check_visibility_total (line : List Char) (h2 : 2 ≤ line.length)
    (hmid : ∀ c ∈ (line.drop 1).dropLast, c.isDigit = true)
    (hb1 : ∀ c, line.head? = some c → (c.isDigit = true ∨ c = '*'))
    (hb2 : ∀ c, line.getLast? = some c → (c.isDigit = true ∨ c = '*')) :
    ∃ b, check_visibility line = some b := by
  cases line with
  | nil => simp at h2
  | cons b1 rest =>
    rcases List.eq_nil_or_concat rest with rfl | ⟨mid, b2, rfl⟩
    · simp at h2
    · rw [List.concat_eq_append] at hmid hb2 ⊢
      have hlast : (b1 :: (mid ++ [b2])).getLast? = some b2 := by
        rw [show b1 :: (mid ++ [b2]) = (b1 :: mid) ++ [b2] by simp, List.getLast?_concat]
      have hmid' : ∀ c ∈ mid, c.isDigit = true := by
        intro c hc
        apply hmid
        simp [hc]
      exact ⟨_, check_visibility_eval b1 b2 mid hmid' (hb1 b1 (by simp)) (hb2 b2 hlast)⟩

/-- C10 (counterexample to the claim as stated): the line `x12x` has
length at least 2 and an all-digit interior, yet `check_visibility`
raises (the left border `x` is neither a digit nor `*`, so `int(line[0])`
fails) instead of returning a boolean. -/
theorem check_visibility_totality_cex :
    2 ≤ (['x', '1', '2', 'x'] : List Char).length ∧
    (∀ c ∈ ((['x', '1', '2', 'x'] : List Char).drop 1).dropLast, c.isDigit = true) ∧
    check_visibility ['x', '1', '2', 'x'] = none := by
  decide

/-- C10 (amended): `check_visibility` returns a boolean on every line of
length at least 2 whose interior cells are all digits and whose two border
cells are digits or `*`; and on any line with a non-digit interior cell
the integer conversion fails, so the function raises (`none`) rather than
returning `False`. -/
theorem check_visibility_totality (line : List Char) :
    (2 ≤ line.length →
      (∀ c ∈ (line.drop 1).dropLast, c.isDigit = true) →
      (∀ c, line.head? = some c → (c.isDigit = true ∨ c = '*')) →
      (∀ c, line.getLast? = some c → (c.isDigit = true ∨ c = '*')) →
      ∃ b, check_visibility line = some b) ∧
    ((∃ c ∈ (line.drop 1).dropLast, c.isDigit = false) → check_visibility line = none) := by
  constructor
  · exact fun h2 hmid hb1 hb2 => check_visibility_total line h2 hmid hb1 hb2
  · intro hbad
    unfold check_visibility
    rw [mapHeights_none _ hbad]

/-- Witness for C10: a well-bordered digit line evaluates to a boolean,
and a line with the unknown marker inside raises. -/
theorem check_visibility_totality_witness :
    (∃ b, check_visibility ['4', '1', '2', '*'] = some b) ∧
    check_visibility ['*', '?', '*'] = none :=
  ⟨(check_visibility_totality ['4', '1', '2', '*']).1 (by decide) (by decide)
      (by decide) (by decide),
   (check_visibility_totality ['*', '?', '*']).2 ⟨'?', by decide, by decide⟩⟩

/-- The horizontal loop returns a boolean when every row check does. -/
lemma hvGo_total (rows : List (List Char))
    (h : ∀ row ∈ rows, ∃ b, check_visibility row = some b) :
    ∃ b, hvGo rows = some b := by
  induction rows with
  | nil => exact ⟨true, rfl⟩
  | cons r rest ih =>
    obtain ⟨b, hb⟩ := h r (by simp)
    obtain ⟨t, ht⟩ := ih fun x hx => h x (by simp [hx])
    cases b with
    | false => exact ⟨false, by simp [hvGo, hb]⟩
    | true => exact ⟨t, by simp [hvGo, hb, ht]⟩

/-- When column `j` exists in every row, the column line is defined and is
the extracted column. -/
lemma colChars_eval (rows : List (List Char)) (j : Nat)
    (h : ∀ r ∈ rows, j < r.length) :
    colChars rows j = some (rows.map (fun r => r.getD j ' ')) := by
  induction rows with
  | nil => rfl
  | cons r rest ih =>
    have hj : j < r.length := h r (by simp)
    have hget : r.get? j = some (r.getD j ' ') := by
      rw [List.getD_eq_getD_get?, List.get?_eq_get hj]
      rfl
    simp only [colChars, hget, ih fun x hx => h x (by simp [hx]), List.map_cons]

/-- The vertical loop returns a boolean when every column line is defined
and every column check returns a boolean. -/
lemma vvGo_total (board : List (List Char)) (cols : List Nat)
    (h : ∀ j ∈ cols, ∃ line, colChars board j = some line ∧
          ∃ b, check_visibility line = some b) :
    ∃ b, vvGo board cols = some b := by
  induction cols with
  | nil => exact ⟨true, rfl⟩
  | cons j rest ih =>
    obtain ⟨line, hline, b, hb⟩ := h j (by simp)
    obtain ⟨t, ht⟩ := ih fun x hx => h x (by simp [hx])
    cases b with
    | false => exact ⟨false, by simp [vvGo, hline, hb]⟩
    | true => exact ⟨t, by simp [vvGo, hline, hb, ht]⟩

/-- On a square board every interior column index is inside every row. -/
lemma colIndex_lt_all (r0 : List Char) (rest : List (List Char))
    (hsq : ∀ row ∈ r0 :: rest, row.length = (r0 :: rest).length) :
    ∀ j ∈ List.range' 1 (r0.length - 2), ∀ r ∈ r0 :: rest, j < r.length := by
  intro j hj r hr
  have hjr := List.mem_range'_1.mp hj
  have h1 := hsq r hr
  have h2 := hsq r0 (by simp)
  simp only [List.length_cons] at h1 h2
  omega

/-- The cell at an interior index of a row is one of its interior cells. -/
lemma getD_interior_mem (row : List Char) (j : Nat)
    (h1 : 1 ≤ j) (h2 : j + 1 < row.length) :
    row.getD j ' ' ∈ (row.drop 1).dropLast := by
  have hlen : ((row.drop 1).dropLast).length = row.length - 2 := by
    simp [List.length_dropLast, List.length_drop]
    omega
  have hidx : j - 1 < ((row.drop 1).dropLast).length := by omega
  have hdrop : j - 1 < (row.drop 1).length := by
    simp [List.length_drop]
    omega
  have hrow : j < row.length := by omega
  have hval : ((row.drop 1).dropLast).getD (j - 1) ' ' = row.getD j ' ' := by
    rw [List.getD_eq_getElem _ _ hidx, List.getD_eq_getElem _ _ hrow,
      List.getElem_dropLast, List.getElem_drop]
    have hj1 : 1 + (j - 1) = j := by omega
    simp only [hj1]
  rw [← hval, List.getD_eq_getElem _ _ hidx]
  exact List.getElem_mem ..

/-- The value of `getLast?` is a member of the list. -/
lemma mem_of_getLast?_eq {l : List α} {a : α} (h : l.getLast? = some a) : a ∈ l := by
  rcases List.eq_nil_or_concat l with rfl | ⟨t, b, rfl⟩
  · simp at h
  · rw [List.concat_eq_append, List.getLast?_concat] at h
    injection h with h
    subst h
    simp [List.concat_eq_append]

/-- Reduction of `validate_board` once the value of the uniqueness stage
is known. -/
lemma validate_board_eq (board : List (List Char)) (u : Bool)
    (hu : (if check_uniqueness_in_rows board
           then check_uniqueness_in_columns board
           else some false) = some u) :
    validate_board board =
      if !(check_not_finished_board board && u) then some false
      else liftAnd (check_horizontal_visibility board) (check_vertical_visibility board) := by
  unfold validate_board
  rw [hu]
  rfl

/-- On a well-formed board `validate_board` never hits a raising path. -/
lemma validate_board_total (board : List (List Char))
    (hwf : wellFormedBoard board = true) :
    ∃ b, validate_board board = some b := by
  simp only [wellFormedBoard, Bool.and_eq_true] at hwf
  obtain ⟨⟨⟨⟨hne, hsqb⟩, htop⟩, hbot⟩, hintb⟩ := hwf
  have hnen : board ≠ [] := by
    cases board
    · simp at hne
    · simp
  obtain ⟨r0, rest, rfl⟩ := List.exists_cons_of_ne_nil hnen
  have hsq : ∀ row ∈ r0 :: rest, row.length = (r0 :: rest).length := by
    intro row hrow
    have := (List.all_eq_true.mp hsqb) row hrow
    simpa using this
  have hint : ∀ row ∈ ((r0 :: rest).drop 1).dropLast,
      (row.head?.all borderOk = true ∧ row.getLast?.all borderOk = true) ∧
      ((row.drop 1).dropLast).all interiorOk = true := by
    intro row hrow
    have := (List.all_eq_true.mp hintb) row hrow
    simpa [Bool.and_eq_true] using this
  have hr0len : r0.length = rest.length + 1 := by
    have := hsq r0 (by simp)
    simpa using this
  by_cases hrows : check_uniqueness_in_rows (r0 :: rest) = true
  · have hcols0 : ∀ j ∈ List.range' 1 (r0.length - 2),
        ∀ r ∈ ((r0 :: rest).drop 1).dropLast, j < r.length :=
      fun j hj r hr => colIndex_lt_all r0 rest hsq j hj r
        (List.mem_of_mem_drop (List.mem_of_mem_dropLast hr))
    set U := (List.range' 1 (r0.length - 2)).all
        (fun j => scanRow ((((r0 :: rest).drop 1).dropLast).map (fun r => r.getD j ' ')) [])
      with hUdef
    have hcols : check_uniqueness_in_columns (r0 :: rest) = some U := by
      simp only [check_uniqueness_in_columns, List.head?_cons, hUdef]
      exact checkColsGo_eval _ _ hcols0
    have hred := validate_board_eq (r0 :: rest) U (by rw [if_pos hrows]; exact hcols)
    rw [hred]
    by_cases hfu : (check_not_finished_board (r0 :: rest) && U) = true
    · have hf : check_not_finished_board (r0 :: rest) = true := by
        have h := hfu
        simp only [Bool.and_eq_true] at h
        exact h.1
      have hnoq : ∀ row ∈ r0 :: rest, ∀ c ∈ row, c ≠ '?' := by
        simp only [check_not_finished_board, List.all_eq_true, bne_iff_ne] at hf
        exact hf
      have hh : ∃ bh, check_horizontal_visibility (r0 :: rest) = some bh := by
        unfold check_horizontal_visibility
        apply hvGo_total
        intro row hrow
        obtain ⟨⟨hhead, hlast⟩, hcells⟩ := hint row hrow
        have hrowb : row ∈ r0 :: rest :=
          List.mem_of_mem_drop (List.mem_of_mem_dropLast hrow)
        have hrlen : row.length = rest.length + 1 := by
          have := hsq row hrowb
          simpa using this
        have hrest_ne : rest ≠ [] := by
          intro h0
          subst h0
          simp at hrow
        have hlen2 : 2 ≤ row.length := by
          cases rest with
          | nil => exact absurd rfl hrest_ne
          | cons a t => simp [hrlen]
        apply check_visibility_total row hlen2
        · intro c hc
          have hio := (List.all_eq_true.mp hcells) c hc
          have hcq : c ≠ '?' :=
            hnoq row hrowb c (List.mem_of_mem_drop (List.mem_of_mem_dropLast hc))
          simp only [interiorOk, Bool.or_eq_true, beq_iff_eq] at hio
          rcases hio with h | h
          · exact h
          · exact absurd h hcq
        · intro c hc
          rw [hc] at hhead
          simp only [Option.all_some, borderOk, Bool.or_eq_true, beq_iff_eq] at hhead
          exact hhead
        · intro c hc
          rw [hc] at hlast
          simp only [Option.all_some, borderOk, Bool.or_eq_true, beq_iff_eq] at hlast
          exact hlast
      have hv : ∃ bv, check_vertical_visibility (r0 :: rest) = some bv := by
        simp only [check_vertical_visibility, List.head?_cons]
        apply vvGo_total
        intro j hj
        have hjb := List.mem_range'_1.mp hj
        have hcolall : ∀ r ∈ r0 :: rest, j < r.length := colIndex_lt_all r0 rest hsq j hj
        have hline := colChars_eval (r0 :: rest) j hcolall
        refine ⟨_, hline, ?_⟩
        have hmapdrop : (((r0 :: rest).map (fun r => r.getD j ' ')).drop 1).dropLast =
            (((r0 :: rest).drop 1).dropLast).map (fun r => r.getD j ' ') := by
          rw [← List.map_drop, ← List.map_dropLast]
        apply check_visibility_total
        · simp only [List.length_map, List.length_cons]
          omega
        · intro c hc
          rw [hmapdrop] at hc
          obtain ⟨row, hrowmem, rfl⟩ := List.mem_map.mp hc
          obtain ⟨⟨hhead, hlast⟩, hcells⟩ := hint row hrowmem
          have hrowb : row ∈ r0 :: rest :=
            List.mem_of_mem_drop (List.mem_of_mem_dropLast hrowmem)
          have hrlen : row.length = rest.length + 1 := by
            have := hsq row hrowb
            simpa using this
          have hmem2 : row.getD j ' ' ∈ (row.drop 1).dropLast :=
            getD_interior_mem row j hjb.1 (by omega)
          have hio := (List.all_eq_true.mp hcells) _ hmem2
          have hcq : row.getD j ' ' ≠ '?' :=
            hnoq row hrowb _ (List.mem_of_mem_drop (List.mem_of_mem_dropLast hmem2))
          simp only [interiorOk, Bool.or_eq_true, beq_iff_eq] at hio
          rcases hio with h | h
          · exact h
          · exact absurd h hcq
        · intro c hc
          simp only [List.map_cons, List.head?_cons, Option.some_inj] at hc
          simp only [List.head?_cons, Option.all_some, List.all_eq_true] at htop
          have hj0 : j < r0.length := hcolall r0 (by simp)
          have hmem : r0.getD j ' ' ∈ r0 := by
            rw [List.getD_eq_getElem _ _ hj0]
            exact List.getElem_mem ..
          have hb := htop _ hmem
          simp only [borderOk, Bool.or_eq_true, beq_iff_eq] at hb
          rw [← hc]
          exact hb
        · intro c hc
          rw [List.getLast?_map] at hc
          cases hlb : (r0 :: rest).getLast? with
          | none => rw [hlb] at hc; simp at hc
          | some rlast =>
            rw [hlb] at hc hbot
            simp only [Option.map_some', Option.some_inj] at hc
            simp only [Option.all_some, List.all_eq_true] at hbot
            have hrlmem : rlast ∈ r0 :: rest := mem_of_getLast?_eq hlb
            have hjl : j < rlast.length := hcolall rlast hrlmem
            have hmem : rlast.getD j ' ' ∈ rlast := by
              rw [List.getD_eq_getElem _ _ hjl]
              exact List.getElem_mem ..
            have hb := hbot _ hmem
            simp only [borderOk, Bool.or_eq_true, beq_iff_eq] at hb
            rw [← hc]
            exact hb
      obtain ⟨bh, hhh⟩ := hh
      obtain ⟨bv, hvv⟩ := hv
      refine ⟨bh && bv, ?_⟩
      rw [hfu, Bool.not_true, if_neg (by simp), hhh, hvv]
      rfl
    · refine ⟨false, ?_⟩
      have hfu' : (check_not_finished_board (r0 :: rest) && U) = false := by
        revert hfu
        cases (check_not_finished_board (r0 :: rest) && U) <;> simp
      rw [hfu', Bool.not_false, if_pos rfl]
  · refine ⟨false, ?_⟩
    have hred := validate_board_eq (r0 :: rest) false (by rw [if_neg hrows])
    rw [hred, Bool.and_false, Bool.not_false, if_pos rfl]

/-- C8: on every file whose loaded board is well formed (square, border
cells hint digits or `*`, interior cells height digits or `?`),
`check_skyscrapers` returns a boolean — every validation failure is the
value `False`, never an exception, and nothing else distinguishes the
kinds of invalidity. -/
theorem check_skyscrapers_total (contents : List (List Char))
    (hwf : wellFormedBoard (read_input contents) = true) :
    ∃ b, check_skyscrapers contents = some b :=
  validate_board_total (read_input contents) hwf

/-- Witness for C8 at the concrete example board. -/
theorem check_skyscrapers_total_witness :
    ∃ b, check_skyscrapers goodBoard = some b :=
  check_skyscrapers_total goodBoard (by decide)

/-- What `dropWhile` exposes at its head no longer satisfies the
predicate. -/
lemma head?_dropWhile_not (p : α → Bool) (l : List α) :
    ∀ c, (l.dropWhile p).head? = some c → p c = false := by
  induction l with
  | nil =>
    intro c h
    simp at h
  | cons x xs ih =>
    intro c h
    by_cases hx : p x = true
    · rw [List.dropWhile_cons_of_pos hx] at h
      exact ih c h
    · rw [List.dropWhile_cons_of_neg hx] at h
      simp only [List.head?_cons, Option.some_inj] at h
      subst h
      exact Bool.not_eq_true _ ▸ hx

/-- C4 (counterexample to the claim as stated): on the raw line `" 1"`,
removing only trailing whitespace keeps the leading blank, but
`read_input` returns `"1"` — the call `line.strip()` in the code removes the
leading blank too. -/
theorem read_input_rstrip_cex :
    rstripSpec [' ', '1'] = [' ', '1'] ∧
    read_input [[' ', '1']] = [['1']] ∧
    read_input [[' ', '1']] ≠ [rstripSpec [' ', '1']] := by
  decide

/-- C4 (amended): `read_input` returns one entry per raw line, each equal
to the raw line with its leading and trailing whitespace removed: the raw
line splits as a leading run of whitespace, the returned line, and a
trailing run of whitespace, and the returned line neither starts nor ends with
whitespace. -/
theorem read_input_strips (contents : List (List Char)) :
    read_input contents = contents.map strip ∧
    ∀ l : List Char, ∃ pre suf,
      (∀ c ∈ pre, isSpace c = true) ∧ (∀ c ∈ suf, isSpace c = true) ∧
      l = pre ++ strip l ++ suf ∧
      (∀ c, (strip l).head? = some c → isSpace c = false) ∧
      (∀ c, (strip l).getLast? = some c → isSpace c = false) := by
  refine ⟨rfl, fun l => ?_⟩
  set d := l.dropWhile isSpace with hd
  set e := d.reverse.dropWhile isSpace with he
  have hstrip : strip l = e.reverse := rfl
  refine ⟨l.takeWhile isSpace, (d.reverse.takeWhile isSpace).reverse, ?_, ?_, ?_, ?_, ?_⟩
  · intro c hc
    exact List.mem_takeWhile_imp hc
  · intro c hc
    exact List.mem_takeWhile_imp (List.mem_reverse.mp hc)
  · have h1 : l.takeWhile isSpace ++ d = l := List.takeWhile_append_dropWhile isSpace l
    have h2 : d.reverse.takeWhile isSpace ++ e = d.reverse :=
      List.takeWhile_append_dropWhile isSpace d.reverse
    have h3 : d = e.reverse ++ (d.reverse.takeWhile isSpace).reverse := by
      have := congrArg List.reverse h2
      rw [List.reverse_append, List.reverse_reverse] at this
      exact this.symm
    rw [hstrip, List.append_assoc, ← h3, h1]
  · intro c hc
    rw [hstrip, List.head?_reverse] at hc
    have hene : e ≠ [] := by
      intro h0
      rw [h0] at hc
      simp at hc
    have h2 : d.reverse.takeWhile isSpace ++ e = d.reverse :=
      List.takeWhile_append_dropWhile isSpace d.reverse
    have h4 : d.reverse.getLast? = some c := by
      rw [← h2, List.getLast?_append_of_ne_nil _ hene]
      exact hc
    rw [List.getLast?_reverse] at h4
    exact head?_dropWhile_not isSpace l c h4
  · intro c hc
    rw [hstrip, List.getLast?_reverse] at hc
    exact head?_dropWhile_not isSpace d.reverse c hc

end Skyscrapers
